import Mathlib

/-!
Shallow embedding of the moment-selection core of `quick_notes.py`
(repository `analyticendeavors/claude-quick-video-notes`), together with
theorems checking the specification's claims against it.

Python floats (timestamps and durations, all exactly representable in
the source's arithmetic at the granularity the claims speak about) are
modelled as rationals; Python strings are modelled as lists of
characters.
-/

namespace QuickNotes

/-- A transcribed word with its start and end times, one entry of the
`words_with_times` list in the source.  The Python dict key `end` is
called `endTime` here because `end` is a Lean keyword. -/
structure TimedWord where
  text : List Char
  start : ℚ
  endTime : ℚ
deriving DecidableEq

/-- Origin tag of a moment (`"keyword"` or `"continuous"` in the source). -/
inductive Source where
  | keyword
  | continuous
deriving DecidableEq

/-- A candidate moment, as built by `find_pointing_moments` and
`generate_continuous_samples` (a dict with keys `timestamp`, `word`,
`context`, `source`). -/
structure Moment where
  timestamp : ℚ
  word : List Char
  context : List Char
  source : Source
deriving DecidableEq

/-- Constant `MIN_FRAMES` (line 42 of the source). -/
def MIN_FRAMES : ℕ := 5

/-- Constant `MAX_FRAMES_SHORT` (line 43). -/
def MAX_FRAMES_SHORT : ℕ := 25

/-- Constant `MAX_FRAMES_MEDIUM` (line 44). -/
def MAX_FRAMES_MEDIUM : ℕ := 40

/-- Constant `MAX_FRAMES_LONG` (line 45). -/
def MAX_FRAMES_LONG : ℕ := 60

/-- Constant `CONTINUOUS_INTERVAL` (line 46). -/
def CONTINUOUS_INTERVAL : ℚ := 4

/-- Constant `DEDUP_THRESHOLD = 1.5` (line 47). -/
def DEDUP_THRESHOLD : ℚ := 3/2

/-- The `POINTING_WORDS` cue vocabulary (lines 24-39), as character
lists.  The two entries containing an apostrophe are written with
`Char.ofNat 39` (the apostrophe character). -/
def POINTING_WORDS : List (List Char) := [
  "this".toList, "that".toList, "here".toList, "there".toList,
  "these".toList, "those".toList,
  "right here".toList, "over here".toList, "this one".toList, "that one".toList,
  "look".toList, "see".toList, "notice".toList, "check".toList, "watch".toList,
  "button".toList, "color".toList, "element".toList, "icon".toList,
  "label".toList, "text".toList, "header".toList,
  "section".toList, "panel".toList, "tab".toList, "menu".toList,
  "dropdown".toList, "field".toList, "input".toList,
  "change".toList, "fix".toList, "update".toList, "move".toList,
  "add".toList, "remove".toList, "delete".toList,
  "adjust".toList, "modify".toList, "replace".toList, "swap".toList,
  "resize".toList, "align".toList,
  "wrong".toList, "issue".toList, "problem".toList, "bug".toList,
  "broken".toList, "needs".toList, "should".toList,
  "doesn".toList ++ Char.ofNat 39 :: "t".toList,
  "isn".toList ++ Char.ofNat 39 :: "t".toList,
  "weird".toList, "off".toList, "bad".toList, "ugly".toList,
  "confusing".toList]

/-- Membership in the character set of Python `.strip(".,!?")`. -/
def isPunct (c : Char) : Bool := c == '.' || c == ',' || c == '!' || c == '?'

/-- Python `s.strip(chars)`: drop the selected characters from both ends. -/
def pyStrip (p : Char → Bool) (s : List Char) : List Char :=
  ((s.dropWhile p).reverse.dropWhile p).reverse

/-- Python `word_info["word"].lower().strip(".,!?")` (line 150). -/
def normWord (s : List Char) : List Char :=
  pyStrip isPunct (s.map Char.toLower)

/-- Python `s[-n:]`: the last `n` characters (all of `s` when shorter). -/
def lastN (n : ℕ) (s : List Char) : List Char := s.drop (s.length - n)

/-- Does `s` begin with the pattern `p`? -/
def seqStartsWith : List Char → List Char → Bool
  | [], _ => true
  | _ :: _, [] => false
  | a :: p, b :: s => a == b && seqStartsWith p s

/-- Python substring containment `p in s` (contiguous occurrence). -/
def occursIn (p : List Char) : List Char → Bool
  | [] => p.isEmpty
  | c :: rest => seqStartsWith p (c :: rest) || occursIn p rest

/-- Python `" ".join(ws)`. -/
def joinSpace : List (List Char) → List Char
  | [] => []
  | [w] => w
  | w :: ws => w ++ ' ' :: joinSpace ws

/-- The context string of word `i` (lines 155-157): the raw texts of the
words in the slice `[max(0, i-3), min(len, i+4))` joined by spaces and
then `.strip()`-ped.  On `ℕ`, `i - 3` is exactly `max 0 (i - 3)`. -/
def contextOf (words : List TimedWord) (i : ℕ) : List Char :=
  pyStrip (fun c => c.isWhitespace)
    (joinSpace (((words.drop (i - 3)).take
      (min words.length (i + 4) - (i - 3))).map (fun w => w.text)))

/-- The scanning loop of `find_pointing_moments` (lines 149-165): `rest`
is the suffix of `all` that begins at index `i`, and `buf` is the
`text_so_far` accumulator. -/
def detectGo (all : List TimedWord) : List TimedWord → ℕ → List Char → List Moment
  | [], _, _ => []
  | w :: rest, i, buf =>
    let word := normWord w.text
    let buf2 := buf ++ ' ' :: word
    (if POINTING_WORDS.any (fun p =>
        occursIn p word || occursIn p ((lastN 50 buf2).map Char.toLower)) then
      [{ timestamp := w.start, word := word, context := contextOf all i,
         source := Source.keyword }]
    else []) ++ detectGo all rest (i + 1) buf2

/-- The detection phase of `find_pointing_moments` (before the
deduplication pass of its lines 167-176). -/
def detectMoments (words : List TimedWord) : List Moment :=
  detectGo words words 0 []

/-- The deduplication loop of `find_pointing_moments` (lines 171-174):
`kept` is the last element appended to `deduped`. -/
def dedupFrom (kept : Moment) : List Moment → List Moment
  | [] => []
  | m :: rest =>
    if m.timestamp - kept.timestamp > DEDUP_THRESHOLD then
      m :: dedupFrom m rest
    else
      dedupFrom kept rest

/-- The deduplication pass of `find_pointing_moments`: empty input gives
empty output, otherwise the first moment is kept unconditionally. -/
def dedupMoments : List Moment → List Moment
  | [] => []
  | m :: rest => m :: dedupFrom m rest

/-- Function `find_pointing_moments` (lines 144-176): detection followed by
deduplication. -/
def find_pointing_moments (words : List TimedWord) : List Moment :=
  dedupMoments (detectMoments words)

/-- Function `get_max_frames` (lines 179-186). -/
def get_max_frames (duration : ℚ) : ℕ :=
  if duration < 60 then MAX_FRAMES_SHORT
  else if duration < 180 then MAX_FRAMES_MEDIUM
  else MAX_FRAMES_LONG

/-- The sample dict built at lines 203-208. -/
def mkContinuousMoment (t : ℚ) : Moment :=
  { timestamp := t, word := [], context := "[continuous sample]".toList,
    source := Source.continuous }

/-- Python `any(abs(t - current_time) < DEDUP_THRESHOLD for t in existing_times)`
(line 201). -/
def hasNearby (times : List ℚ) (c : ℚ) : Bool :=
  times.any (fun t => decide (|t - c| < DEDUP_THRESHOLD))

/-- The `while current_time < duration - 0.5` loop of
`generate_continuous_samples` (lines 198-209), with an explicit fuel
(the first `ℕ` argument).  `generate_continuous_samples` passes a fuel
strictly larger than the number of loop iterations, as the
characterization lemma `sampleLoop_eq_closedForm` below proves. -/
def sampleLoop (duration : ℚ) (times : List ℚ) : ℕ → ℚ → List Moment
  | 0, _ => []
  | fuel + 1, current =>
    if current < duration - 1/2 then
      (if hasNearby times current then [] else [mkContinuousMoment current]) ++
        sampleLoop duration times fuel (current + CONTINUOUS_INTERVAL)
    else []

/-- Function `generate_continuous_samples` (lines 189-211).  The Python set
`existing_times` is modelled as the list of timestamps: it is consumed
only by the order- and multiplicity-insensitive `any` of line 201. -/
def generate_continuous_samples (duration : ℚ) (existing_moments : List Moment) :
    List Moment :=
  sampleLoop duration (existing_moments.map (fun m => m.timestamp))
    (⌈(duration - 1) / 4⌉₊ + 1) (1/2)

/-- The comparison of Python `sort(key=lambda m: m["timestamp"])`; the
sort is stable in both the source and this model. -/
def momLE (a b : Moment) : Bool := decide (a.timestamp ≤ b.timestamp)

/-- The moment-merging and budget-trimming logic of `process_video`
(lines 403-423). -/
def allocateMoments (keyword_moments continuous_samples : List Moment)
    (duration : ℚ) : List Moment :=
  let all_moments := (keyword_moments ++ continuous_samples).mergeSort momLE
  let max_frames := get_max_frames duration
  if max_frames < all_moments.length then
    if max_frames ≤ keyword_moments.length then
      (keyword_moments.mergeSort momLE).take max_frames
    else
      (keyword_moments ++
        continuous_samples.take (max_frames - keyword_moments.length)).mergeSort momLE
  else all_moments

/-- The final moment list handed to frame extraction:
`all_moments[:max_frames]` at line 427. -/
def selectMoments (keyword_moments continuous_samples : List Moment)
    (duration : ℚ) : List Moment :=
  (allocateMoments keyword_moments continuous_samples duration).take
    (get_max_frames duration)

/-- The selection pipeline of `process_video` (lines 396-427): detector
with deduplication, coverage sampler, budget allocator, final slice. -/
def pipelineMoments (words : List TimedWord) (duration : ℚ) : List Moment :=
  selectMoments (find_pointing_moments words)
    (generate_continuous_samples duration (find_pointing_moments words)) duration

/-! Spec-side definitions, used to state the refinement claims C4 and C5.
They follow the spec's wording and are compared with the source-side
definitions above. -/

/-- The coverage sampler as the spec describes it: candidate timestamps
`0.5 + k * CONTINUOUS_INTERVAL` for `k = 0, 1, ...`, stopping at the
first candidate that is not strictly below `duration - 0.5` (these are
exactly the candidates with `k < ⌈(duration - 1) / 4⌉₊`, as `claim_C4`
also proves), a candidate being kept exactly when no existing moment's
timestamp lies strictly within `DEDUP_THRESHOLD` of it. -/
def continuousSamplesSpec (duration : ℚ) (existing_moments : List Moment) :
    List Moment :=
  (((List.range ⌈(duration - 1) / 4⌉₊).map
      (fun k : ℕ => 1/2 + CONTINUOUS_INTERVAL * (k : ℚ))).filter
    (fun c => !(existing_moments.any
      (fun m => decide (|m.timestamp - c| < DEDUP_THRESHOLD))))).map
    mkContinuousMoment

/-- Default word used with `List.getD` in index-based statements. -/
def defaultWord : TimedWord := { text := [], start := 0, endTime := 0 }

/-- The rolling lowercased punctuation-stripped transcript buffer after
the first `n` words (the value of `text_so_far` once word `n - 1` has
been appended). -/
def bufferUpTo (words : List TimedWord) (n : ℕ) : List Char :=
  (words.take n).foldl (fun b w => b ++ ' ' :: normWord w.text) []

/-- Whether word `i` matches some cue phrase: the cue occurs in the
lowercased punctuation-stripped word itself, or in the last 50
characters of the rolling buffer (which already includes word `i`). -/
def matchesAt (words : List TimedWord) (i : ℕ) : Bool :=
  POINTING_WORDS.any (fun p =>
    occursIn p (normWord (words.getD i defaultWord).text) ||
    occursIn p ((lastN 50 (bufferUpTo words (i + 1))).map Char.toLower))

/-- The moment the detector emits for a matching word `i`. -/
def emitAt (words : List TimedWord) (i : ℕ) : Moment :=
  { timestamp := (words.getD i defaultWord).start,
    word := normWord (words.getD i defaultWord).text,
    context := contextOf words i,
    source := Source.keyword }

/-! Helper lemmas. -/

/-- Taking a prefix never yields more than the requested length;
restated here for the final `all_moments[:max_frames]` slice. -/
lemma length_take_le' {α : Type} (n : ℕ) (l : List α) : (l.take n).length ≤ n :=
  List.length_take_le n l

lemma dedupFrom_sublist (kept : Moment) (l : List Moment) :
    (dedupFrom kept l).Sublist l := by
  induction l generalizing kept with
  | nil => simp [dedupFrom]
  | cons m rest ih =>
    rw [dedupFrom]
    split
    · exact (ih m).cons₂ m
    · exact (ih kept).cons m

lemma dedupFrom_chain' (kept : Moment) (l : List Moment) :
    List.Chain' (fun a b => DEDUP_THRESHOLD < b.timestamp - a.timestamp)
      (kept :: dedupFrom kept l) := by
  induction l generalizing kept with
  | nil => simp [dedupFrom]
  | cons m rest ih =>
    rw [dedupFrom]
    split
    · exact List.chain'_cons.mpr ⟨by assumption, ih m⟩
    · exact ih kept

lemma dedupMoments_sublist (l : List Moment) : (dedupMoments l).Sublist l := by
  cases l with
  | nil => simp [dedupMoments]
  | cons m rest => exact (dedupFrom_sublist m rest).cons₂ m

lemma mergeSort_pairwise_ts (l : List Moment) :
    (l.mergeSort momLE).Pairwise (fun a b : Moment => a.timestamp ≤ b.timestamp) := by
  have htrans : ∀ a b c : Moment, momLE a b = true → momLE b c = true →
      momLE a c = true := by
    intro a b c hab hbc
    simp only [momLE, decide_eq_true_eq] at hab hbc ⊢
    exact le_trans hab hbc
  have htotal : ∀ a b : Moment, (momLE a b || momLE b a) = true := by
    intro a b
    simp only [momLE, Bool.or_eq_true, decide_eq_true_eq]
    exact le_total _ _
  exact (List.sorted_mergeSort htrans htotal l).imp
    (fun hab => by simpa [momLE] using hab)

lemma selectMoments_pairwise (kw cs : List Moment) (d : ℚ) :
    (selectMoments kw cs d).Pairwise
      (fun a b : Moment => a.timestamp ≤ b.timestamp) := by
  apply List.Pairwise.sublist (List.take_sublist _ _)
  simp only [allocateMoments]
  split_ifs with h1 h2
  · exact List.Pairwise.sublist (List.take_sublist _ _) (mergeSort_pairwise_ts _)
  · exact mergeSort_pairwise_ts _
  · exact mergeSort_pairwise_ts _

lemma natCeil_sub_one (x : ℚ) (hx : 0 < x) : ⌈x - 1⌉₊ = ⌈x⌉₊ - 1 := by
  have h1 : 1 ≤ ⌈x⌉₊ := Nat.ceil_pos.mpr hx
  have hle : ⌈x - 1⌉₊ ≤ ⌈x⌉₊ - 1 := by
    rw [Nat.ceil_le, Nat.cast_sub h1, Nat.cast_one]
    linarith [Nat.le_ceil x]
  have hge : ⌈x⌉₊ ≤ ⌈x - 1⌉₊ + 1 := by
    rw [Nat.ceil_le]
    push_cast
    linarith [Nat.le_ceil (x - 1)]
  omega

lemma ceil_shift (d c : ℚ) (hc : c < d - 1/2) :
    ⌈(d - 1/2 - c) / 4⌉₊ = ⌈(d - 1/2 - (c + 4)) / 4⌉₊ + 1 := by
  have hpos : 0 < (d - 1/2 - c) / 4 := div_pos (by linarith) (by norm_num)
  have he : (d - 1/2 - (c + 4)) / 4 = (d - 1/2 - c) / 4 - 1 := by ring
  have h1 : 0 < ⌈(d - 1/2 - c) / 4⌉₊ := Nat.ceil_pos.mpr hpos
  rw [he, natCeil_sub_one _ hpos]
  omega

lemma any_map_general {α β : Type} (l : List α) (f : α → β) (p : β → Bool) :
    (l.map f).any p = l.any (fun a => p (f a)) := by
  induction l with
  | nil => rfl
  | cons a t ih => simp [ih]

lemma sampleLoop_eq_closedForm (d : ℚ) (ts : List ℚ) :
    ∀ (fuel : ℕ) (c : ℚ), ⌈(d - 1/2 - c) / 4⌉₊ < fuel →
    sampleLoop d ts fuel c =
      (((List.range ⌈(d - 1/2 - c) / 4⌉₊).map (fun k : ℕ => c + 4 * (k : ℚ))).filter
        (fun x => !(hasNearby ts x))).map mkContinuousMoment := by
  intro fuel
  induction fuel with
  | zero => intro c h; exact absurd h (Nat.not_lt_zero _)
  | succ f ih =>
    intro c h
    by_cases hc : c < d - 1/2
    · have hshift := ceil_shift d c hc
      have hfuel : ⌈(d - 1/2 - (c + 4)) / 4⌉₊ < f := by omega
      have hCI : c + CONTINUOUS_INTERVAL = c + 4 := rfl
      simp only [sampleLoop]
      rw [if_pos hc, hCI, ih (c + 4) hfuel, hshift, List.range_succ_eq_map]
      simp only [List.map_cons, List.map_map, Nat.cast_zero, mul_zero, add_zero]
      have hfn : (List.range ⌈(d - 1/2 - (c + 4)) / 4⌉₊).map
          ((fun k : ℕ => c + 4 * (k : ℚ)) ∘ Nat.succ) =
          (List.range ⌈(d - 1/2 - (c + 4)) / 4⌉₊).map
            (fun k : ℕ => c + 4 + 4 * (k : ℚ)) := by
        apply List.map_congr_left
        intro k _
        show c + 4 * ((Nat.succ k : ℕ) : ℚ) = c + 4 + 4 * (k : ℚ)
        push_cast [Nat.succ_eq_add_one]
        ring
      rw [hfn, List.filter_cons]
      cases hn : hasNearby ts c
      · simp [hn]
      · simp [hn]
    · have hz : (d - 1/2 - c) / 4 ≤ 0 := by
        apply div_nonpos_of_nonpos_of_nonneg
        · linarith
        · norm_num
      rw [Nat.ceil_eq_zero.mpr hz]
      simp only [sampleLoop]
      rw [if_neg hc]
      simp

lemma getLast?_cons_ne {α : Type} (a : α) {l : List α} (h : l ≠ []) :
    (a :: l).getLast? = l.getLast? := by
  cases l with
  | nil => exact absurd rfl h
  | cons b t => rw [List.getLast?_cons_cons]

lemma sampleLoop_stop (d : ℚ) (ts : List ℚ) (f : ℕ) (c : ℚ)
    (hc : ¬ c < d - 1/2) : sampleLoop d ts f c = [] := by
  cases f with
  | zero => rfl
  | succ f =>
    simp only [sampleLoop]
    rw [if_neg hc]

lemma sampleLoop_nil_unfold (d : ℚ) (f : ℕ) (c : ℚ) (hc : c < d - 1/2) :
    sampleLoop d [] (f + 1) c =
      mkContinuousMoment c :: sampleLoop d [] f (c + CONTINUOUS_INTERVAL) := by
  simp only [sampleLoop]
  rw [if_pos hc]
  simp [hasNearby]

lemma sampleLoop_nil_head (d : ℚ) :
    ∀ (f : ℕ) (c : ℚ) (b : Moment),
    (sampleLoop d [] f c).head? = some b → b = mkContinuousMoment c := by
  intro f c b h
  cases f with
  | zero => simp [sampleLoop] at h
  | succ f =>
    by_cases hc : c < d - 1/2
    · rw [sampleLoop_nil_unfold d f c hc] at h
      simp only [List.head?_cons, Option.some.injEq] at h
      exact h.symm
    · rw [sampleLoop_stop d [] (f + 1) c hc] at h
      simp at h

lemma sampleLoop_nil_chain (d : ℚ) :
    ∀ (f : ℕ) (c : ℚ),
    List.Chain' (fun a b => b.timestamp = a.timestamp + CONTINUOUS_INTERVAL)
      (sampleLoop d [] f c) := by
  intro f
  induction f with
  | zero => intro c; simp [sampleLoop]
  | succ f ih =>
    intro c
    by_cases hc : c < d - 1/2
    · rw [sampleLoop_nil_unfold d f c hc, List.chain'_cons']
      refine ⟨?_, ih (c + CONTINUOUS_INTERVAL)⟩
      intro b hb
      rw [sampleLoop_nil_head d f (c + CONTINUOUS_INTERVAL) b (Option.mem_def.mp hb)]
      rfl
    · rw [sampleLoop_stop d [] (f + 1) c hc]
      simp

lemma sampleLoop_nil_getLast (d : ℚ) :
    ∀ (f : ℕ) (c : ℚ), ⌈(d - 1/2 - c) / 4⌉₊ < f → c < d - 1/2 →
    ∃ m, (sampleLoop d [] f c).getLast? = some m ∧
      m.timestamp < d - 1/2 ∧ d - 1/2 ≤ m.timestamp + 4 := by
  intro f
  induction f with
  | zero => intro c h _; exact absurd h (Nat.not_lt_zero _)
  | succ f ih =>
    intro c hfuel hc
    rw [sampleLoop_nil_unfold d f c hc]
    have hCI : c + CONTINUOUS_INTERVAL = c + 4 := rfl
    by_cases hc2 : c + CONTINUOUS_INTERVAL < d - 1/2
    · have hfuel2 : ⌈(d - 1/2 - (c + CONTINUOUS_INTERVAL)) / 4⌉₊ < f := by
        rw [hCI]
        have := ceil_shift d c hc
        omega
      obtain ⟨m, hm, h1, h2⟩ := ih (c + CONTINUOUS_INTERVAL) hfuel2 hc2
      have hne : sampleLoop d [] f (c + CONTINUOUS_INTERVAL) ≠ [] := by
        intro h0
        rw [h0] at hm
        simp at hm
      refine ⟨m, ?_, h1, h2⟩
      rw [getLast?_cons_ne _ hne]
      exact hm
    · rw [sampleLoop_stop d [] f (c + CONTINUOUS_INTERVAL) hc2]
      refine ⟨mkContinuousMoment c, by simp, hc, ?_⟩
      have h4 := not_lt.mp hc2
      rw [hCI] at h4
      exact h4

lemma detectGo_timestamp (all : List TimedWord) :
    ∀ (rest : List TimedWord) (i : ℕ) (buf : List Char) (m : Moment),
    m ∈ detectGo all rest i buf → ∃ w ∈ rest, m.timestamp = w.start := by
  intro rest
  induction rest with
  | nil => intro i buf m hm; simp [detectGo] at hm
  | cons w rest ih =>
    intro i buf m hm
    simp only [detectGo] at hm
    rcases List.mem_append.mp hm with h | h
    · split at h
      · simp only [List.mem_singleton] at h
        exact ⟨w, List.mem_cons_self w rest, by rw [h]⟩
      · simp at h
    · obtain ⟨w', hw', h'⟩ := ih (i + 1) _ m h
      exact ⟨w', List.mem_cons_of_mem w hw', h'⟩

lemma sampleLoop_mem_bounds (d : ℚ) (ts : List ℚ) :
    ∀ (f : ℕ) (c : ℚ) (m : Moment), 0 ≤ c → m ∈ sampleLoop d ts f c →
    0 ≤ m.timestamp ∧ m.timestamp < d - 1/2 := by
  intro f
  induction f with
  | zero => intro c m _ hm; simp [sampleLoop] at hm
  | succ f ih =>
    intro c m hc0 hm
    by_cases hc : c < d - 1/2
    · simp only [sampleLoop] at hm
      rw [if_pos hc] at hm
      rcases List.mem_append.mp hm with h | h
      · split at h
        · simp at h
        · simp only [List.mem_singleton] at h
          rw [h]
          exact ⟨hc0, hc⟩
      · exact ih (c + CONTINUOUS_INTERVAL) m
          (by simp only [CONTINUOUS_INTERVAL]; linarith) h
    · rw [sampleLoop_stop d ts (f + 1) c hc] at hm
      simp at hm

lemma bufferUpTo_succ (words : List TimedWord) (i : ℕ) (w : TimedWord)
    (h : words[i]? = some w) :
    bufferUpTo words (i + 1) = bufferUpTo words i ++ ' ' :: normWord w.text := by
  unfold bufferUpTo
  rw [List.take_succ, h]
  simp [List.foldl_append]

lemma detectGo_eq (all : List TimedWord) :
    ∀ (rest : List TimedWord) (i : ℕ), rest = all.drop i →
    detectGo all rest i (bufferUpTo all i) =
      (List.range' i rest.length).filterMap
        (fun j => if matchesAt all j then some (emitAt all j) else none) := by
  intro rest
  induction rest with
  | nil => intro i _; simp [detectGo]
  | cons w rest ih =>
    intro i hdrop
    have hi : i < all.length := by
      by_contra hle
      rw [List.drop_eq_nil_of_le (not_lt.mp hle)] at hdrop
      exact (List.cons_ne_nil w rest) hdrop
    have hget : all[i]? = some w := by
      have h0 := List.getElem?_drop all i 0
      rw [← hdrop] at h0
      simpa using h0.symm
    have hgetD : all.getD i defaultWord = w := by
      rw [List.getD_eq_getElem?_getD, hget]
      rfl
    have hrest : rest = all.drop (i + 1) := by
      have ht := congrArg List.tail hdrop
      simpa [List.tail_drop] using ht
    have hbuf : bufferUpTo all (i + 1) = bufferUpTo all i ++ ' ' :: normWord w.text :=
      bufferUpTo_succ all i w hget
    have hcond : (POINTING_WORDS.any (fun p =>
        occursIn p (normWord w.text) ||
        occursIn p ((lastN 50 (bufferUpTo all i ++ ' ' :: normWord w.text)).map
          Char.toLower))) = matchesAt all i := by
      simp only [matchesAt, hgetD, hbuf]
    have hemit : emitAt all i =
        Moment.mk w.start (normWord w.text) (contextOf all i) Source.keyword := by
      simp only [emitAt, hgetD]
    simp only [detectGo]
    rw [← hbuf] at hcond ⊢
    rw [ih (i + 1) hrest, hcond]
    have hrange : List.range' i ((w :: rest).length) =
        i :: List.range' (i + 1) rest.length := rfl
    rw [hrange, List.filterMap_cons]
    cases hmatch : matchesAt all i with
    | false => simp [hmatch]
    | true => simp [hmatch, hemit]

/-! Claim theorems. -/

/-- C5: The keyword moment detector emits, for each word `i` that
matches a cue phrase (the cue is a substring of the lowercased
punctuation-stripped word, or occurs in the last 50 characters of the
rolling transcript buffer), exactly one moment, whose timestamp is that
word's start time and whose context is the raw texts of words
`[i-3, i+3]` clamped to the sequence bounds and joined by spaces (the
code also trims surrounding whitespace from the joined context, the
identity for whitespace-free word texts); no word emits more than one
moment, and an empty word sequence yields an empty output. -/
theorem claim_C5_detector_characterization :
    (∀ words : List TimedWord, detectMoments words =
      (List.range words.length).filterMap
        (fun i => if matchesAt words i then some (emitAt words i) else none)) ∧
    detectMoments [] = [] := by
  constructor
  · intro words
    have h := detectGo_eq words words 0 rfl
    rw [List.range_eq_range']
    exact h
  · rfl

/-- C4: The continuous coverage sampler emits the candidate timestamps
`0.5, 0.5 + 4, 0.5 + 8, ...`, stopping at the first candidate that is
not strictly below `duration - 0.5` (equivalently, the candidates with
index `k < ⌈(duration - 1)/4⌉₊`, second conjunct), and a candidate is
kept exactly when no keyword-moment timestamp lies strictly within
`DEDUP_THRESHOLD` of it: the source function equals the spec-side
`continuousSamplesSpec`. -/
theorem claim_C4_sampler_characterization :
    ∀ (duration : ℚ) (existing_moments : List Moment),
    generate_continuous_samples duration existing_moments =
      continuousSamplesSpec duration existing_moments ∧
    (∀ k : ℕ, (1/2 + CONTINUOUS_INTERVAL * (k : ℚ) < duration - 1/2 ↔
      k < ⌈(duration - 1) / 4⌉₊)) := by
  intro d ex
  constructor
  · have he : (d - 1/2 - 1/2 : ℚ) / 4 = (d - 1) / 4 := by ring
    have h := sampleLoop_eq_closedForm d (ex.map (fun m => m.timestamp))
      (⌈(d - 1) / 4⌉₊ + 1) (1/2) (by rw [he]; omega)
    rw [he] at h
    simp only [generate_continuous_samples]
    rw [h]
    simp only [continuousSamplesSpec, CONTINUOUS_INTERVAL, hasNearby]
    have hpred : ∀ a ∈ (List.range ⌈(d - 1) / 4⌉₊).map
        (fun k : ℕ => 1/2 + 4 * (k : ℚ)),
        (!(List.map (fun m => m.timestamp) ex).any
          fun t => decide (|t - a| < DEDUP_THRESHOLD)) =
        (!ex.any fun m => decide (|m.timestamp - a| < DEDUP_THRESHOLD)) := by
      intro a _
      rw [any_map_general]
    exact congrArg (List.map mkContinuousMoment) (List.filter_congr hpred)
  · intro k
    rw [Nat.lt_ceil, lt_div_iff₀ (by norm_num : (0:ℚ) < 4)]
    simp only [CONTINUOUS_INTERVAL]
    constructor <;> intro h <;> linarith

/-- C1: For every video duration and every list of keyword and
continuous moments, the final selected moment list handed to frame
extraction has length at most `max_frames(duration)`, where
`max_frames(duration)` is 25 for `duration < 60`, 40 for
`60 ≤ duration < 180`, and 60 for `duration ≥ 180`. -/
theorem claim_C1_budget_bound :
    ∀ (duration : ℚ) (keyword_moments continuous_samples : List Moment)
      (words : List TimedWord),
    (selectMoments keyword_moments continuous_samples duration).length ≤
      get_max_frames duration ∧
    (pipelineMoments words duration).length ≤ get_max_frames duration ∧
    get_max_frames duration =
      (if duration < 60 then 25 else if duration < 180 then 40 else 60) := by
  intro d kw cs words
  refine ⟨List.length_take_le _ _, List.length_take_le _ _, ?_⟩
  simp [get_max_frames, MAX_FRAMES_SHORT, MAX_FRAMES_MEDIUM, MAX_FRAMES_LONG]

/-- C3: The deduplicator is a greedy left-to-right scan: it always keeps
the first moment, its output is a subsequence of its input, any two
consecutive kept moments differ by strictly more than
`DEDUP_THRESHOLD = 1.5` seconds (each later moment is kept only when its
timestamp exceeds the previously kept one's by strictly more than the
threshold), and empty input yields empty output. -/
theorem claim_C3_dedup_greedy :
    ∀ (m : Moment) (rest : List Moment),
    dedupMoments [] = [] ∧
    (dedupMoments (m :: rest)).head? = some m ∧
    (dedupMoments (m :: rest)).Sublist (m :: rest) ∧
    List.Chain' (fun a b => DEDUP_THRESHOLD < b.timestamp - a.timestamp)
      (dedupMoments (m :: rest)) := by
  intro m rest
  exact ⟨rfl, rfl, (dedupFrom_sublist m rest).cons₂ m, dedupFrom_chain' m rest⟩

/-- C6: For every input word sequence ordered by start time and every
duration, the final selected moment list is sorted non-decreasingly by
timestamp (this holds in all three allocator branches, which either
return a merge-sorted list or a prefix of one). -/
theorem claim_C6_output_sorted (words : List TimedWord) (duration : ℚ)
    (_hw : words.Pairwise (fun a b => a.start ≤ b.start)) :
    (pipelineMoments words duration).Pairwise
      (fun a b : Moment => a.timestamp ≤ b.timestamp) :=
  selectMoments_pairwise _ _ _

/-- Witness for C6 at a concrete sorted one-word input and duration 5. -/
theorem claim_C6_output_sorted_witness :
    ([⟨"this".toList, 0, 1⟩] : List TimedWord).Pairwise
      (fun a b => a.start ≤ b.start) ∧
    (pipelineMoments [⟨"this".toList, 0, 1⟩] 5).Pairwise
      (fun a b : Moment => a.timestamp ≤ b.timestamp) :=
  ⟨List.pairwise_singleton _ _,
   claim_C6_output_sorted [⟨"this".toList, 0, 1⟩] 5 (List.pairwise_singleton _ _)⟩

/-- C9: The selection core is deterministic: two runs on equal inputs
produce equal outputs at every stage (detector, detector+deduplicator,
sampler, and the whole pipeline through the allocator).  The only
non-functional construct of the source, iteration over the Python set
`existing_times`, feeds an order- and multiplicity-insensitive `any`. -/
theorem claim_C9_deterministic :
    ∀ (w₁ w₂ : List TimedWord) (d₁ d₂ : ℚ), w₁ = w₂ → d₁ = d₂ →
    detectMoments w₁ = detectMoments w₂ ∧
    find_pointing_moments w₁ = find_pointing_moments w₂ ∧
    generate_continuous_samples d₁ (find_pointing_moments w₁) =
      generate_continuous_samples d₂ (find_pointing_moments w₂) ∧
    pipelineMoments w₁ d₁ = pipelineMoments w₂ d₂ := by
  rintro w _ d _ rfl rfl
  exact ⟨rfl, rfl, rfl, rfl⟩

/-- Witness for C9 at a concrete input. -/
theorem claim_C9_deterministic_witness :
    ([⟨"this".toList, 0, 1⟩] : List TimedWord) = [⟨"this".toList, 0, 1⟩] ∧
    (5 : ℚ) = 5 ∧
    (detectMoments [⟨"this".toList, 0, 1⟩] = detectMoments [⟨"this".toList, 0, 1⟩] ∧
     find_pointing_moments [⟨"this".toList, 0, 1⟩] =
       find_pointing_moments [⟨"this".toList, 0, 1⟩] ∧
     generate_continuous_samples 5 (find_pointing_moments [⟨"this".toList, 0, 1⟩]) =
       generate_continuous_samples 5 (find_pointing_moments [⟨"this".toList, 0, 1⟩]) ∧
     pipelineMoments [⟨"this".toList, 0, 1⟩] 5 = pipelineMoments [⟨"this".toList, 0, 1⟩] 5) :=
  ⟨rfl, rfl, claim_C9_deterministic _ _ 5 5 rfl rfl⟩

/-- C10: For durations at most 1 second the sampler emits nothing
whatever the keyword moments are, so on an empty word sequence the
pipeline selects zero moments; in particular no operation enforces
`MIN_FRAMES = 5` as a lower bound on the output count. -/
theorem claim_C10_no_min_frames :
    ∀ d : ℚ, d ≤ 1 →
    (∀ existing_moments : List Moment,
      generate_continuous_samples d existing_moments = []) ∧
    pipelineMoments [] d = [] ∧
    (pipelineMoments [] d).length < MIN_FRAMES := by
  intro d hd
  have hnot : ¬((1 : ℚ)/2 < d - 1/2) := by intro h; linarith
  have hsamp : ∀ existing_moments : List Moment,
      generate_continuous_samples d existing_moments = [] := by
    intro ex
    simp only [generate_continuous_samples, sampleLoop]
    rw [if_neg hnot]
  have hkw : find_pointing_moments ([] : List TimedWord) = [] := rfl
  have hpipe : pipelineMoments [] d = [] := by
    simp [pipelineMoments, hkw, hsamp, selectMoments, allocateMoments,
      List.mergeSort_nil]
  exact ⟨hsamp, hpipe, by simp [hpipe, MIN_FRAMES]⟩

/-- C2: In the budget allocator, whenever the total moment count exceeds
`max_frames(duration)` but the keyword-moment count alone is below the
max, no keyword moment is dropped (so a keyword moment can be dropped
only when the keyword count alone reaches the max), and the selection is
exactly the keyword moments plus the first `max - keyword_count`
continuous samples, reordered by timestamp. -/
theorem claim_C2_keyword_priority (keyword_moments continuous_samples : List Moment)
    (duration : ℚ)
    (h1 : get_max_frames duration < keyword_moments.length + continuous_samples.length)
    (h2 : keyword_moments.length < get_max_frames duration) :
    (∀ m ∈ keyword_moments,
      m ∈ selectMoments keyword_moments continuous_samples duration) ∧
    (selectMoments keyword_moments continuous_samples duration).Perm
      (keyword_moments ++
        continuous_samples.take (get_max_frames duration - keyword_moments.length)) := by
  have hsel : selectMoments keyword_moments continuous_samples duration =
      (keyword_moments ++
        continuous_samples.take
          (get_max_frames duration - keyword_moments.length)).mergeSort momLE := by
    simp only [selectMoments, allocateMoments]
    rw [if_pos, if_neg (not_le.mpr h2)]
    · apply List.take_of_length_le
      rw [List.length_mergeSort, List.length_append, List.length_take]
      omega
    · rw [List.length_mergeSort, List.length_append]
      exact h1
  constructor
  · intro m hm
    rw [hsel]
    exact ((List.mergeSort_perm _ _).mem_iff).mpr (List.mem_append_left _ hm)
  · rw [hsel]
    exact List.mergeSort_perm _ _

/-- Witness for C2: one keyword moment and 26 continuous samples on a
10-second video (`max_frames = 25`). -/
theorem claim_C2_keyword_priority_witness :
    get_max_frames 10 <
      ([⟨0, "this".toList, "this".toList, Source.keyword⟩] : List Moment).length +
        ((List.range 26).map (fun k => mkContinuousMoment (k : ℚ))).length ∧
    ([⟨0, "this".toList, "this".toList, Source.keyword⟩] : List Moment).length <
      get_max_frames 10 ∧
    ((∀ m ∈ ([⟨0, "this".toList, "this".toList, Source.keyword⟩] : List Moment),
        m ∈ selectMoments [⟨0, "this".toList, "this".toList, Source.keyword⟩]
          ((List.range 26).map (fun k => mkContinuousMoment (k : ℚ))) 10) ∧
      (selectMoments [⟨0, "this".toList, "this".toList, Source.keyword⟩]
          ((List.range 26).map (fun k => mkContinuousMoment (k : ℚ))) 10).Perm
        ([⟨0, "this".toList, "this".toList, Source.keyword⟩] ++
          ((List.range 26).map (fun k => mkContinuousMoment (k : ℚ))).take
            (get_max_frames 10 -
              ([⟨0, "this".toList, "this".toList, Source.keyword⟩] : List Moment).length))) :=
  ⟨by with_unfolding_all decide, by with_unfolding_all decide,
   claim_C2_keyword_priority _ _ 10 (by with_unfolding_all decide)
     (by with_unfolding_all decide)⟩

/-- C7 counterexample: for duration 10 (which exceeds 1 second) and zero
keyword moments, the last continuous sample is at 8.5 s, which is 1.5 s
from the end of the video — not within 0.5 s of it as the claim states.
(Indeed the loop guard `current < duration - 0.5` forces every sample,
in particular the last one, to be strictly more than 0.5 s from the
end.) -/
theorem claim_C7_counterexample :
    (1 : ℚ) < 10 ∧
    (generate_continuous_samples 10 []).getLast? =
      some (mkContinuousMoment (17/2)) ∧
    ¬((10 : ℚ) - (mkContinuousMoment (17/2)).timestamp ≤ 1/2) := by
  refine ⟨by norm_num, by with_unfolding_all decide, ?_⟩
  simp only [mkContinuousMoment]
  norm_num

/-- C7 amended: for every duration strictly greater than 1 second and
zero keyword moments, consecutive continuous samples are spaced exactly
`CONTINUOUS_INTERVAL` (4 s) apart, the first sample is at 0.5 s (within
0.5 s of the start of the video), and the last sample lies strictly more
than 0.5 s but at most `CONTINUOUS_INTERVAL + 0.5` (4.5) s from the end
of the video. -/
theorem claim_C7_amended_coverage :
    ∀ d : ℚ, 1 < d →
    List.Chain' (fun a b => b.timestamp = a.timestamp + CONTINUOUS_INTERVAL)
      (generate_continuous_samples d []) ∧
    (generate_continuous_samples d []).head? = some (mkContinuousMoment (1/2)) ∧
    (∃ m, (generate_continuous_samples d []).getLast? = some m ∧
      1/2 < d - m.timestamp ∧ d - m.timestamp ≤ CONTINUOUS_INTERVAL + 1/2) := by
  intro d hd
  have hc : (1:ℚ)/2 < d - 1/2 := by linarith
  have hgen : generate_continuous_samples d [] =
      sampleLoop d [] (⌈(d - 1) / 4⌉₊ + 1) (1/2) := rfl
  refine ⟨?_, ?_, ?_⟩
  · rw [hgen]
    exact sampleLoop_nil_chain d _ _
  · rw [hgen, sampleLoop_nil_unfold d _ _ hc]
    rfl
  · have hb : ⌈(d - 1/2 - (1:ℚ)/2) / 4⌉₊ < ⌈(d - 1) / 4⌉₊ + 1 := by
      rw [show (d - 1/2 - (1:ℚ)/2) = d - 1 from by ring]
      omega
    obtain ⟨m, hm, h1, h2⟩ := sampleLoop_nil_getLast d (⌈(d - 1) / 4⌉₊ + 1) (1/2) hb hc
    refine ⟨m, by rw [hgen]; exact hm, by linarith, ?_⟩
    simp only [CONTINUOUS_INTERVAL]
    linarith

/-- Witness for the amended C7 at duration 10. -/
theorem claim_C7_amended_coverage_witness :
    (1 : ℚ) < 10 ∧
    (List.Chain' (fun a b => b.timestamp = a.timestamp + CONTINUOUS_INTERVAL)
      (generate_continuous_samples 10 []) ∧
    (generate_continuous_samples 10 []).head? = some (mkContinuousMoment (1/2)) ∧
    (∃ m, (generate_continuous_samples 10 []).getLast? = some m ∧
      1/2 < 10 - m.timestamp ∧ (10 : ℚ) - m.timestamp ≤ CONTINUOUS_INTERVAL + 1/2)) :=
  ⟨by norm_num, claim_C7_amended_coverage 10 (by norm_num)⟩

set_option maxRecDepth 8000 in
/-- C8 counterexample: the detector copies word start times into moment
timestamps without clamping them against the duration, so for duration
10 the word `"this"` spoken with start time 500 yields a keyword moment
whose timestamp 500 is not in `[0, 10)`. -/
theorem claim_C8_counterexample :
    (find_pointing_moments [⟨"this".toList, 500, 501⟩]).map
      (fun m => m.timestamp) = [500] ∧
    ¬((500 : ℚ) < 10) := by
  exact ⟨by with_unfolding_all decide, by norm_num⟩

/-- C8 amended: every continuous sample's timestamp lies in
`[0, duration)` unconditionally (whatever list of existing moments the
sampler is given, in particular the pipeline's keyword moments of an
arbitrary — even out-of-range — transcript); every keyword moment's
timestamp is the start time of some input word, and hence lies in
`[0, duration)` provided every input word's start time does (the code
never clamps word start times against the duration). -/
theorem claim_C8_amended_bounds :
    ∀ (words : List TimedWord) (duration : ℚ),
    (∀ existing_moments : List Moment,
      ∀ m ∈ generate_continuous_samples duration existing_moments,
        0 ≤ m.timestamp ∧ m.timestamp < duration) ∧
    (∀ m ∈ find_pointing_moments words, ∃ w ∈ words, m.timestamp = w.start) ∧
    ((∀ w ∈ words, 0 ≤ w.start ∧ w.start < duration) →
      ∀ m ∈ find_pointing_moments words,
        0 ≤ m.timestamp ∧ m.timestamp < duration) := by
  intro words d
  refine ⟨?_, ?_, ?_⟩
  · intro ex m hm
    have hb := sampleLoop_mem_bounds d (ex.map (fun m => m.timestamp))
      (⌈(d - 1) / 4⌉₊ + 1) (1/2) m (by norm_num) hm
    exact ⟨hb.1, by linarith [hb.2]⟩
  · intro m hm
    exact detectGo_timestamp words words 0 [] m ((dedupMoments_sublist _).subset hm)
  · intro hw m hm
    obtain ⟨w, hwmem, hts⟩ :=
      detectGo_timestamp words words 0 [] m ((dedupMoments_sublist _).subset hm)
    rw [hts]
    exact hw w hwmem

/-- Witness for the amended C8: one in-range word on a 10-second video,
with the sampler conjunct instantiated at the pipeline's own keyword
moments and the inner hypothesis of the keyword-bound conjunct
discharged concretely. -/
theorem claim_C8_amended_bounds_witness :
    (∀ w ∈ ([⟨"this".toList, 2, 3⟩] : List TimedWord),
      0 ≤ w.start ∧ w.start < 10) ∧
    ((∀ m ∈ generate_continuous_samples 10
        (find_pointing_moments [⟨"this".toList, 2, 3⟩]),
       0 ≤ m.timestamp ∧ m.timestamp < 10) ∧
     (∀ m ∈ find_pointing_moments [⟨"this".toList, 2, 3⟩],
       ∃ w ∈ ([⟨"this".toList, 2, 3⟩] : List TimedWord), m.timestamp = w.start) ∧
     (∀ m ∈ find_pointing_moments [⟨"this".toList, 2, 3⟩],
       0 ≤ m.timestamp ∧ m.timestamp < 10)) :=
  ⟨by with_unfolding_all decide,
   (claim_C8_amended_bounds [⟨"this".toList, 2, 3⟩] 10).1
     (find_pointing_moments [⟨"this".toList, 2, 3⟩]),
   (claim_C8_amended_bounds [⟨"this".toList, 2, 3⟩] 10).2.1,
   (claim_C8_amended_bounds [⟨"this".toList, 2, 3⟩] 10).2.2
     (by with_unfolding_all decide)⟩

/-- Witness for C10 at duration 1. -/
theorem claim_C10_no_min_frames_witness :
    (1 : ℚ) ≤ 1 ∧
    ((∀ existing_moments : List Moment,
       generate_continuous_samples 1 existing_moments = []) ∧
     pipelineMoments [] 1 = [] ∧
     (pipelineMoments [] 1).length < MIN_FRAMES) :=
  ⟨le_refl 1, claim_C10_no_min_frames 1 (le_refl 1)⟩

end QuickNotes
